import Mathlib

/-!
# pdftl — page-spec resolution and page moving, shallowly embedded

This file embeds the page-selection and page-relocation logic of pdftl:

* `src/pdftl/commands/spin.py` (`spin_pdf`): per-spec splitting on the last
  `:`, and the resolution of a parsed `PageSpec` into the ordered list of
  page numbers to transform (base range, even/odd qualifiers, omissions);
* `src/pdftl/commands/move.py` (`move_pages`): anchor arithmetic and the
  remove/reinsert sequence of the `move` command.

Pages are modelled as plain values in a `List`; Python's 1-based page
numbers, `sorted`, `del pdf.pages[i]` and slice insertion are embedded
explicitly.  The tokenizer/bracket expander (`pdftl/utils/page_specs.py`)
is not part of the sources at hand; where a claim depends on it, a
definition modelled from the specification's grammar stands in and is
marked as such in its doc comment.
-/

namespace Pdftl

/-- Parsed form of one page-spec token, as `spin_pdf` consumes it
(`page_spec.start`, `page_spec.end`, `page_spec.qualifiers`,
`page_spec.omissions` in `src/pdftl/commands/spin.py`).  The Python
attribute `end` is a Lean keyword, so the field is called `stop`. -/
structure PageSpec where
  start : Int
  stop : Int
  qualifiers : List String
  omissions : List (Int × Int)
deriving DecidableEq, Repr

/-- `step = 1 if page_spec.start <= page_spec.end else -1;`
`page_numbers = list(range(page_spec.start, page_spec.end + step, step))`
(spin.py lines 79–80), with Python `range` semantics spelled out. -/
def basePages (start stop : Int) : List Int :=
  if start ≤ stop then
    (List.range (stop - start + 1).toNat).map (fun i : Nat => start + (i : Int))
  else
    (List.range (start - stop + 1).toNat).map (fun i : Nat => start - (i : Int))

/-- The qualifier filters of spin.py lines 83–86, in the source's order:
an `even` filter first if `"even"` is among the qualifiers, then an `odd`
filter if `"odd"` is. -/
def applyQualifiers (qs : List String) (pages : List Int) : List Int :=
  let pages := if "even" ∈ qs then pages.filter (fun p => p % 2 == 0) else pages
  if "odd" ∈ qs then pages.filter (fun p => p % 2 != 0) else pages

/-- The omission loop of spin.py lines 89–90: each omission `(om_start,
om_end)` keeps `p` unless `om_start <= p <= om_end`, in the written order
of the bounds. -/
def applyOmissions (oms : List (Int × Int)) (pages : List Int) : List Int :=
  oms.foldl
    (fun acc om => acc.filter (fun p => !(decide (om.1 ≤ p) && decide (p ≤ om.2))))
    pages

/-- The page numbers `spin_pdf` targets for one `PageSpec`
(spin.py lines 79–90): base range, then qualifiers, then omissions. -/
def resolvePageSpec (sp : PageSpec) : List Int :=
  applyOmissions sp.omissions (applyQualifiers sp.qualifiers (basePages sp.start sp.stop))

example : basePages 2 7 = [2, 3, 4, 5, 6, 7] := by decide
example : basePages 3 1 = [3, 2, 1] := by decide
example : resolvePageSpec ⟨2, 7, ["even"], []⟩ = [2, 4, 6] := by decide
example : resolvePageSpec ⟨2, 7, ["odd"], []⟩ = [3, 5, 7] := by decide

/-- Modelled from the spec: the numeric value of a run of decimal digits
(the tokenizer `pdftl/utils/page_specs.py` is not among the sources at
hand; the grammar is `spec := [handle] range [rotation] [qualifier]
{exclusion}`, `pageref := integer | 'end'`). -/
def parseNat? (cs : List Char) : Option Nat :=
  if cs ≠ [] ∧ cs.all Char.isDigit then
    some (cs.foldl (fun a c => 10 * a + (c.toNat - 48)) 0)
  else none

/-- Modelled from the spec: an optional trailing `even`/`odd` qualifier
keyword, recorded as the qualifier set of the `PageSpec`. -/
def parseQualifier? (cs : List Char) : Option (List String) :=
  if cs = [] then some []
  else if cs = "even".toList then some ["even"]
  else if cs = "odd".toList then some ["odd"]
  else none

/-- Modelled from the spec: the `range [qualifier]` fragment of the token
grammar, enough for literal tokens such as `2-7even` (`range := pageref
['-' pageref] | pageref`, a single page giving `start = end`). -/
def parseToken? (cs : List Char) : Option PageSpec :=
  let d1 := cs.takeWhile Char.isDigit
  let r1 := cs.dropWhile Char.isDigit
  match parseNat? d1 with
  | none => none
  | some n1 =>
    match r1 with
    | '-' :: r2 =>
      let d2 := r2.takeWhile Char.isDigit
      let r3 := r2.dropWhile Char.isDigit
      match parseNat? d2, parseQualifier? r3 with
      | some n2, some qs => some ⟨n1, n2, qs, []⟩
      | _, _ => none
    | r =>
      match parseQualifier? r with
      | some qs => some ⟨n1, n1, qs, []⟩
      | none => none

example : parseToken? "2-7even".toList = some ⟨2, 7, ["even"], []⟩ := by decide
example : parseToken? "2-7odd".toList = some ⟨2, 7, ["odd"], []⟩ := by decide

/-- Membership in the base range: exactly the integers between the two
bounds, whichever way round they are written. -/
theorem mem_basePages {start stop p : Int} :
    p ∈ basePages start stop ↔ min start stop ≤ p ∧ p ≤ max start stop := by
  by_cases h : start ≤ stop
  · rw [min_eq_left h, max_eq_right h]
    unfold basePages
    rw [if_pos h]
    simp only [List.mem_map, List.mem_range]
    constructor
    · rintro ⟨i, hi, rfl⟩
      omega
    · rintro ⟨h1, h2⟩
      exact ⟨(p - start).toNat, by omega, by omega⟩
  · rw [min_eq_right (by omega), max_eq_left (by omega)]
    unfold basePages
    rw [if_neg h]
    simp only [List.mem_map, List.mem_range]
    constructor
    · rintro ⟨i, hi, rfl⟩
      omega
    · rintro ⟨h1, h2⟩
      exact ⟨(start - p).toNat, by omega, by omega⟩

/-- Indexing a mapped initial segment. -/
theorem getElem?_range_map (f : Nat → Int) (n i : Nat) :
    ((List.range n).map f)[i]? = if i < n then some (f i) else none := by
  by_cases h : i < n
  · rw [List.getElem?_eq_getElem (by simpa using h)]
    simp [h]
  · rw [List.getElem?_eq_none (by simpa using Nat.le_of_not_lt h)]
    simp [h]

/-- The base range read off by position: the `i`-th entry steps by `+1`
from `start` when `start ≤ stop` and by `-1` otherwise. -/
theorem getElem?_basePages (start stop : Int) (i : Nat) :
    (basePages start stop)[i]? =
      if i ≤ (stop - start).natAbs then
        some (if start ≤ stop then start + i else start - i)
      else none := by
  unfold basePages
  by_cases h : start ≤ stop
  · rw [if_pos h, getElem?_range_map]
    by_cases hi : i ≤ (stop - start).natAbs
    · rw [if_pos (by omega), if_pos hi, if_pos h]
    · rw [if_neg (by omega), if_neg hi]
  · rw [if_neg h, getElem?_range_map]
    by_cases hi : i ≤ (stop - start).natAbs
    · rw [if_pos (by omega), if_pos hi, if_neg h]
    · rw [if_neg (by omega), if_neg hi]

/-- Qualifier filtering never reorders: the result is a sublist of its
input. -/
theorem applyQualifiers_sublist (qs : List String) (pages : List Int) :
    List.Sublist (applyQualifiers qs pages) pages := by
  unfold applyQualifiers
  split
  · split
    · exact ((List.filter_sublist _).trans (List.filter_sublist _))
    · exact List.filter_sublist _
  · split
    · exact List.filter_sublist _
    · exact List.Sublist.refl _

/-- The `even` qualifier keeps exactly the even entries. -/
theorem mem_applyQualifiers_even (pages : List Int) (p : Int) :
    p ∈ applyQualifiers ["even"] pages ↔ p ∈ pages ∧ p % 2 = 0 := by
  simp [applyQualifiers]

/-- The `odd` qualifier keeps exactly the odd entries. -/
theorem mem_applyQualifiers_odd (pages : List Int) (p : Int) :
    p ∈ applyQualifiers ["odd"] pages ↔ p ∈ pages ∧ p % 2 ≠ 0 := by
  simp [applyQualifiers]

/-- Omission filtering: a page survives iff it survives the qualifier
stage and lies in no omission's written interval. -/
theorem mem_applyOmissions (oms : List (Int × Int)) (pages : List Int) (p : Int) :
    p ∈ applyOmissions oms pages ↔
      p ∈ pages ∧ ∀ om ∈ oms, ¬(om.1 ≤ p ∧ p ≤ om.2) := by
  induction oms generalizing pages with
  | nil => simp [applyOmissions]
  | cons om oms ih =>
    have hstep : applyOmissions (om :: oms) pages =
        applyOmissions oms
          (pages.filter (fun p => !(decide (om.1 ≤ p) && decide (p ≤ om.2)))) := rfl
    rw [hstep, ih]
    simp only [List.mem_filter, List.mem_cons]
    constructor
    · rintro ⟨⟨hp, hf⟩, hrest⟩
      refine ⟨hp, ?_⟩
      rintro om' (rfl | hom')
      · intro hc
        simp [hc.1, hc.2] at hf
      · exact hrest om' hom'
    · rintro ⟨hp, hall⟩
      refine ⟨⟨hp, ?_⟩, fun om' hom' => hall om' (Or.inr hom')⟩
      have := hall om (Or.inl rfl)
      by_cases h1 : om.1 ≤ p
      · by_cases h2 : p ≤ om.2
        · exact absurd ⟨h1, h2⟩ this
        · simp [h1, h2]
      · simp [h1]

/-- Filtering an empty selection leaves it empty. -/
theorem applyOmissions_nil (oms : List (Int × Int)) :
    applyOmissions oms [] = [] := by
  induction oms with
  | nil => rfl
  | cons om oms ih => exact ih

/-- C1.  For every parsed `PageSpec` the resolved base sequence is exactly
the integers from `start` to `end` inclusive, ascending when `start ≤ end`
and descending otherwise; an even/odd qualifier keeps exactly the entries
of that parity without reordering; on an 8-page document the token
`2-7even` resolves to `[2, 4, 6]` and `2-7odd` to `[3, 5, 7]`. -/
theorem spin_base_sequence_and_parity :
    (∀ start stop p : Int,
      p ∈ basePages start stop ↔ min start stop ≤ p ∧ p ≤ max start stop)
    ∧ (∀ (start stop : Int) (i : Nat),
        (basePages start stop)[i]? =
          if i ≤ (stop - start).natAbs then
            some (if start ≤ stop then start + i else start - i)
          else none)
    ∧ (∀ (qs : List String) (pages : List Int),
        List.Sublist (applyQualifiers qs pages) pages)
    ∧ (∀ (pages : List Int) (p : Int),
        p ∈ applyQualifiers ["even"] pages ↔ p ∈ pages ∧ p % 2 = 0)
    ∧ (∀ (pages : List Int) (p : Int),
        p ∈ applyQualifiers ["odd"] pages ↔ p ∈ pages ∧ p % 2 ≠ 0)
    ∧ parseToken? "2-7even".toList = some ⟨2, 7, ["even"], []⟩
    ∧ resolvePageSpec ⟨2, 7, ["even"], []⟩ = [2, 4, 6]
    ∧ parseToken? "2-7odd".toList = some ⟨2, 7, ["odd"], []⟩
    ∧ resolvePageSpec ⟨2, 7, ["odd"], []⟩ = [3, 5, 7] :=
  ⟨fun _ _ _ => mem_basePages, getElem?_basePages, applyQualifiers_sublist,
   mem_applyQualifiers_even, mem_applyQualifiers_odd,
   by decide, by decide, by decide, by decide⟩

/-- C9.  A qualifier set containing both `even` and `odd` resolves to no
pages at all: the code filters to the evens and then filters those to the
odds, leaving nothing for the omission stage to act on. -/
theorem spin_even_and_odd_gives_no_pages (sp : PageSpec)
    (he : "even" ∈ sp.qualifiers) (ho : "odd" ∈ sp.qualifiers) :
    resolvePageSpec sp = [] := by
  unfold resolvePageSpec applyQualifiers
  rw [if_pos he, if_pos ho, List.filter_filter]
  have hnil : (basePages sp.start sp.stop).filter
      (fun a => a % 2 != 0 && a % 2 == 0) = [] := by
    rw [List.filter_eq_nil_iff]
    intro p _
    by_cases h : p % 2 = 0 <;> simp [h, bne]
  rw [hnil, applyOmissions_nil]

/-- C9, witnessed on a concrete contradictory spec. -/
theorem spin_even_and_odd_gives_no_pages_witness :
    resolvePageSpec ⟨1, 8, ["even", "odd"], []⟩ = [] :=
  spin_even_and_odd_gives_no_pages ⟨1, 8, ["even", "odd"], []⟩
    (by decide) (by decide)

/-- C2, counterexample.  The claim reads an omission as the inclusive
interval between `min` and `max` of its bounds; the code keeps `p` unless
`om_start ≤ p ≤ om_end` in the written order, so the reversed omission
`(7, 4)` removes nothing: page 5 lies between `min 7 4` and `max 7 4` yet
survives resolution of `2-9~7-4`. -/
theorem spin_omission_reversed_counterexample :
    min (7 : Int) 4 ≤ 5 ∧ (5 : Int) ≤ max 7 4 ∧
      5 ∈ resolvePageSpec ⟨2, 9, [], [(7, 4)]⟩ ∧
      resolvePageSpec ⟨2, 9, [], [(7, 4)]⟩ = [2, 3, 4, 5, 6, 7, 8, 9] := by
  refine ⟨by decide, by decide, ?_, by decide⟩
  decide

/-- C2, amended.  A page of the remaining sequence is removed by an
omission `(om.start, om.end)` iff `om.start ≤ p ≤ om.end` with the bounds
in their written order; an omission whose first bound exceeds its second
removes nothing. -/
theorem spin_omission_written_interval :
    (∀ (sp : PageSpec) (p : Int),
      p ∈ resolvePageSpec sp ↔
        p ∈ applyQualifiers sp.qualifiers (basePages sp.start sp.stop)
          ∧ ∀ om ∈ sp.omissions, ¬(om.1 ≤ p ∧ p ≤ om.2))
    ∧ (∀ (oms : List (Int × Int)) (pages : List Int) (om : Int × Int),
        om ∈ oms → om.2 < om.1 →
          ∀ p ∈ pages, (p ∈ applyOmissions oms pages ↔
            p ∈ applyOmissions (oms.erase om) pages)) := by
  constructor
  · intro sp p
    exact mem_applyOmissions sp.omissions _ p
  · intro oms pages om hom hrev p hp
    rw [mem_applyOmissions, mem_applyOmissions]
    constructor
    · rintro ⟨hp', hall⟩
      exact ⟨hp', fun om' hom' => hall om' (List.mem_of_mem_erase hom')⟩
    · rintro ⟨hp', hall⟩
      refine ⟨hp', fun om' hom' => ?_⟩
      by_cases h : om' = om
      · subst h
        omega
      · exact hall om' ((List.mem_erase_of_ne h).mpr hom')

/-! ## The `move` command (src/pdftl/commands/move.py, `move_pages`)

The document is a list of pages; `sourceNums`/`targetNums` are the 1-based
page numbers the source and target specs resolved to.  Resolution
guarantees every number lies in `1..page_count`, so the `n - 1` index
conversion is ordinary `Nat` subtraction and the deletions below always
hit a valid index (Python would raise `IndexError` otherwise). -/

/-- One of the two `move` anchor modes (`spec.mode` in move.py). -/
inductive MoveMode where
  | before
  | after
deriving DecidableEq, Repr

/-- `sorted([n - 1 for n in nums])` (move.py lines 49 and 56). -/
def sortedIndices (nums : List Nat) : List Nat :=
  List.insertionSort (· ≤ ·) (nums.map (· - 1))

/-- The anchor (move.py lines 61–64): index of the first target page for
`before`, index of the last target page plus one for `after`.  The
defaults are unreachable — the caller has checked the list is nonempty. -/
def moveAnchor (mode : MoveMode) (targetIndices : List Nat) : Nat :=
  match mode with
  | .before => targetIndices.headD 0
  | .after => targetIndices.getLastD 0 + 1

/-- `sum(1 for idx in source_indices if idx < anchor_orig)`
(move.py line 69). -/
def moveAdjustment (sourceIndices : List Nat) (anchor : Nat) : Nat :=
  sourceIndices.countP (fun i => decide (i < anchor))

/-- `for i in reversed(source_indices): del pdf.pages[i]`
(move.py lines 77–78): delete positions from the highest index down. -/
def deleteIndicesDesc {α : Type} (sourceIndices : List Nat) (pages : List α) :
    List α :=
  sourceIndices.reverse.foldl (fun ps i => ps.eraseIdx i) pages

/-- `pdf.pages[k:k] = block` (move.py line 83): Python slice insertion,
with a negative position counted from the end and clamped. -/
def pySliceInsert {α : Type} (pos : Int) (block pages : List α) : List α :=
  let j : Int := if pos < 0 then (pages.length : Int) + pos else pos
  let k : Nat := (min (max j 0) (pages.length : Int)).toNat
  pages.take k ++ block ++ pages.drop k

/-- The body of `move_pages` (move.py lines 38–87) once the two specs have
been resolved to `sourceNums`/`targetNums`.  The `Bool` of a successful
result records whether the source-matched-no-pages warning was logged; an
empty target raises `UserCommandLineError` before any mutation, returned
here as `.error`. -/
def movePages (pages : List Nat) (sourceNums : List Nat) (mode : MoveMode)
    (targetNums : List Nat) : Except String (List Nat × Bool) :=
  if sourceNums = [] then
    .ok (pages, true)
  else
    let sourceIndices := sortedIndices sourceNums
    if targetNums = [] then
      .error "Move target matched no pages."
    else
      let targetIndices := sortedIndices targetNums
      let anchorOrig := moveAnchor mode targetIndices
      let adjustment := moveAdjustment sourceIndices anchorOrig
      let anchorFinal : Int := (anchorOrig : Int) - (adjustment : Int)
      let pagesToMove := sourceIndices.map (fun i => pages.getD i 0)
      let remaining := deleteIndicesDesc sourceIndices pages
      .ok (pySliceInsert anchorFinal pagesToMove remaining, false)

example : sortedIndices [3, 5] = [2, 4] := by decide
example : movePages [1, 2, 3, 4, 5, 6, 7, 8, 9, 10] [3, 5] .after [10] =
    .ok ([1, 2, 4, 6, 7, 8, 9, 10, 3, 5], false) := rfl
example : movePages [1, 2, 3, 4, 5, 6] [5, 3] .before [1] =
    .ok ([3, 5, 1, 2, 4, 6], false) := rfl

/-- Deleting sorted indices from the highest down, written as a simple
recursion: the smallest index is erased last, from the list the other
erasures produced. -/
def removeAsc {α : Type} : List Nat → List α → List α
  | [], pages => pages
  | i :: rest, pages => (removeAsc rest pages).eraseIdx i

/-- The reversed fold of move.py's deletion loop is that recursion. -/
theorem deleteIndicesDesc_eq_removeAsc {α : Type} (idxs : List Nat) (pages : List α) :
    deleteIndicesDesc idxs pages = removeAsc idxs pages := by
  induction idxs with
  | nil => rfl
  | cons i rest ih =>
    unfold deleteIndicesDesc at ih ⊢
    rw [List.reverse_cons, List.foldl_append, ih]
    rfl

/-- The elements of `pages` whose position (counting from `k`) is not
listed in `idxs` — what deletion from the highest index down leaves. -/
def keptFrom {α : Type} (idxs : List Nat) : Nat → List α → List α
  | _, [] => []
  | k, a :: as =>
    if k ∈ idxs then keptFrom idxs (k + 1) as else a :: keptFrom idxs (k + 1) as

theorem keptFrom_nil {α : Type} (k : Nat) (pages : List α) :
    keptFrom [] k pages = pages := by
  induction pages generalizing k with
  | nil => rfl
  | cons a as ih => simp [keptFrom, ih]

/-- A position below the running counter never matters to `keptFrom`. -/
theorem keptFrom_cons_lt {α : Type} (pages : List α) (j : Nat) (rest : List Nat) :
    ∀ k : Nat, j < k → keptFrom (j :: rest) k pages = keptFrom rest k pages := by
  induction pages with
  | nil => intro k _; rfl
  | cons a as ih =>
    intro k hk
    have hmem : (k ∈ j :: rest) = (k ∈ rest) := by
      simp only [List.mem_cons, eq_iff_iff]
      constructor
      · rintro (rfl | h)
        · omega
        · exact h
      · exact Or.inr
    simp only [keptFrom, hmem]
    rw [ih (k + 1) (by omega)]

/-- Erasing position `i - k` from what `keptFrom rest k` kept is the same
as also excluding `i`, provided every excluded position of `rest` lies
above `i`. -/
theorem eraseIdx_keptFrom {α : Type} (pages : List α) :
    ∀ (k i : Nat) (rest : List Nat), k ≤ i → (∀ x ∈ rest, i < x) →
      (keptFrom rest k pages).eraseIdx (i - k) = keptFrom (i :: rest) k pages := by
  induction pages with
  | nil => intro k i rest _ _; rfl
  | cons a as ih =>
    intro k i rest hki hlt
    by_cases hk : k ∈ rest
    · exact absurd (hlt k hk) (by omega)
    · by_cases hik : k = i
      · subst hik
        have h0 : k - k = 0 := by omega
        simp only [keptFrom, if_neg hk, h0, List.eraseIdx_cons_zero,
          if_pos (List.mem_cons_self k rest)]
        exact (keptFrom_cons_lt as k rest (k + 1) (by omega)).symm
      · have hsucc : i - k = (i - (k + 1)) + 1 := by omega
        have hmem : ¬ k ∈ i :: rest := by
          simp only [List.mem_cons]
          rintro (rfl | h)
          · exact hik rfl
          · exact hk h
        simp only [keptFrom, if_neg hk, if_neg hmem, hsucc, List.eraseIdx_cons_succ]
        rw [ih (k + 1) i rest (by omega) hlt]

/-- Deleting a strictly ascending index list from the highest position
down keeps exactly the entries at the unlisted positions, in order. -/
theorem removeAsc_eq_keptFrom {α : Type} (idxs : List Nat) (pages : List α)
    (hs : idxs.Sorted (· < ·)) : removeAsc idxs pages = keptFrom idxs 0 pages := by
  induction idxs with
  | nil => exact (keptFrom_nil 0 pages).symm
  | cons i rest ih =>
    rcases List.sorted_cons.mp hs with ⟨hlt, hrest⟩
    have hstep : removeAsc (i :: rest) pages = (removeAsc rest pages).eraseIdx i := rfl
    rw [hstep, ih hrest]
    have := eraseIdx_keptFrom pages 0 i rest (Nat.zero_le i) hlt
    simpa using this

/-- What deletion keeps is a sublist of the original: the relative order
of the untouched pages is preserved. -/
theorem keptFrom_sublist {α : Type} (idxs : List Nat) (pages : List α) :
    ∀ k : Nat, List.Sublist (keptFrom idxs k pages) pages := by
  induction pages with
  | nil => intro k; exact List.Sublist.refl _
  | cons a as ih =>
    intro k
    by_cases hk : k ∈ idxs
    · simp only [keptFrom, if_pos hk]
      exact (ih (k + 1)).cons a
    · simp only [keptFrom, if_neg hk]
      exact (ih (k + 1)).cons₂ a

/-- The block read off a strictly ascending, in-bounds index list,
followed by what deletion keeps, is a permutation of the whole list. -/
theorem perm_block_append_keptFrom {α : Type} (d : α) :
    ∀ (pages : List α) (k : Nat) (idxs : List Nat), idxs.Sorted (· < ·) →
      (∀ x ∈ idxs, k ≤ x ∧ x < k + pages.length) →
      List.Perm (idxs.map (fun i => pages.getD (i - k) d) ++ keptFrom idxs k pages)
        pages := by
  intro pages
  induction pages with
  | nil =>
    intro k idxs _ hb
    match idxs with
    | [] => exact List.Perm.refl _
    | j :: rest => exact absurd (hb j (List.mem_cons_self j rest)) (by simp)
  | cons a as ih =>
    intro k idxs hs hb
    by_cases hk : k ∈ idxs
    · match idxs, hk with
      | j :: rest, hk =>
        rcases List.sorted_cons.mp hs with ⟨hlt, hrest⟩
        have hj : j = k := by
          have h1 : k ≤ j := (hb j (List.mem_cons_self j rest)).1
          rcases List.mem_cons.mp hk with h | h
          · omega
          · exact absurd (hlt k h) (by omega)
        subst hj
        have h0 : (a :: as).getD (j - j) d = a := by simp
        have hmap : rest.map (fun i => (a :: as).getD (i - j) d)
            = rest.map (fun i => as.getD (i - (j + 1)) d) := by
          apply List.map_congr_left
          intro i hi
          have hji : j < i := hlt i hi
          have : i - j = (i - (j + 1)) + 1 := by omega
          rw [this, List.getD_cons_succ]
        have hkept : keptFrom (j :: rest) j (a :: as) = keptFrom rest (j + 1) as := by
          simp only [keptFrom, if_pos (List.mem_cons_self j rest)]
          exact keptFrom_cons_lt as j rest (j + 1) (by omega)
        rw [List.map_cons, h0, hmap, hkept, List.cons_append]
        refine List.Perm.cons a (ih (j + 1) rest hrest ?_)
        intro x hx
        have := hb x (List.mem_cons_of_mem j hx)
        have := hlt x hx
        simp only [List.length_cons] at *
        omega
    · have hmap : idxs.map (fun i => (a :: as).getD (i - k) d)
          = idxs.map (fun i => as.getD (i - (k + 1)) d) := by
        apply List.map_congr_left
        intro i hi
        have h1 : k ≤ i := (hb i hi).1
        have h2 : i ≠ k := fun h => hk (h ▸ hi)
        have : i - k = (i - (k + 1)) + 1 := by omega
        rw [this, List.getD_cons_succ]
      have hkept : keptFrom idxs k (a :: as) = a :: keptFrom idxs (k + 1) as := by
        simp only [keptFrom, if_neg hk]
      rw [hmap, hkept]
      refine List.perm_middle.trans (List.Perm.cons a (ih (k + 1) idxs hs ?_))
      intro x hx
      have h1 := hb x hx
      have h2 : x ≠ k := fun h => hk (h ▸ hx)
      simp only [List.length_cons] at *
      omega

/-- Python slice insertion is a take/drop split around some cut point. -/
theorem pySliceInsert_eq_take_drop {α : Type} (pos : Int) (block pages : List α) :
    ∃ k : Nat, pySliceInsert pos block pages = pages.take k ++ block ++ pages.drop k :=
  ⟨_, rfl⟩

/-- Wherever the block lands, slice insertion yields a permutation of the
block and the receiving list. -/
theorem pySliceInsert_perm {α : Type} (pos : Int) (block pages : List α) :
    List.Perm (pySliceInsert pos block pages) (block ++ pages) := by
  obtain ⟨k, hk⟩ := pySliceInsert_eq_take_drop pos block pages
  rw [hk]
  have h1 : List.Perm (pages.take k ++ (block ++ pages.drop k))
      (block ++ pages.drop k ++ pages.take k) := List.perm_append_comm
  have h2 : List.Perm (block ++ (pages.drop k ++ pages.take k))
      (block ++ (pages.take k ++ pages.drop k)) :=
    List.Perm.append_left block List.perm_append_comm
  rw [List.append_assoc]
  refine h1.trans ?_
  rw [List.append_assoc] at *
  refine h2.trans ?_
  rw [List.take_append_drop]

/-- `move_pages` on nonempty resolved source and target lists, in one
equation: the sorted source pages are collected as the block, deleted from
the highest index down, and the block is reinserted at
`anchor - adjustment`. -/
theorem movePages_eq (pages src tgt : List Nat) (mode : MoveMode)
    (hs : src ≠ []) (ht : tgt ≠ []) :
    movePages pages src mode tgt =
      .ok (pySliceInsert
            ((moveAnchor mode (sortedIndices tgt) : Int) -
              (moveAdjustment (sortedIndices src)
                (moveAnchor mode (sortedIndices tgt)) : Int))
            ((sortedIndices src).map (fun i => pages.getD i 0))
            (deleteIndicesDesc (sortedIndices src) pages), false) := by
  unfold movePages
  rw [if_neg hs, if_neg ht]

/-- C3.  For every move with nonempty resolved source and target lists the
block is reinserted at `Anchor − #{source indices < Anchor}`, where
`Anchor` is the first target index for `before` and the last target index
plus one for `after`; concretely, moving `{3, 5}` to `after 10` in a
10-page document inserts at final position `10 − 2 = 8`. -/
theorem move_insertion_position :
    (∀ (pages src tgt : List Nat) (mode : MoveMode), src ≠ [] → tgt ≠ [] →
      movePages pages src mode tgt =
        .ok (pySliceInsert
              ((moveAnchor mode (sortedIndices tgt) : Int) -
                ((sortedIndices src).countP
                  (fun i => decide (i < moveAnchor mode (sortedIndices tgt))) : Int))
              ((sortedIndices src).map (fun i => pages.getD i 0))
              (deleteIndicesDesc (sortedIndices src) pages), false))
    ∧ (moveAnchor .after (sortedIndices [10]) : Int) -
        ((sortedIndices [3, 5]).countP
          (fun i => decide (i < moveAnchor .after (sortedIndices [10]))) : Int) = 8
    ∧ movePages [1, 2, 3, 4, 5, 6, 7, 8, 9, 10] [3, 5] .after [10] =
        .ok ([1, 2, 4, 6, 7, 8, 9, 10, 3, 5], false) :=
  ⟨fun pages src tgt mode hs ht => movePages_eq pages src tgt mode hs ht,
   by decide, rfl⟩

/-- C4, counterexample.  The claim predicts the moved block keeps the
source spec's resolution order, so resolving `{5, 3}` in that order and
moving it `before 1` should put page 5 ahead of page 3; the code sorts the
source indices first and produces the ascending block `3, 5`. -/
theorem move_block_order_counterexample :
    movePages [1, 2, 3, 4, 5, 6] [5, 3] .before [1] = .ok ([3, 5, 1, 2, 4, 6], false)
    ∧ movePages [1, 2, 3, 4, 5, 6] [5, 3] .before [1] ≠ .ok ([5, 3, 1, 2, 4, 6], false) := by
  refine ⟨rfl, fun h => ?_⟩
  rw [show movePages [1, 2, 3, 4, 5, 6] [5, 3] .before [1] =
      .ok ([3, 5, 1, 2, 4, 6], false) from rfl] at h
  simp at h

/-- C4, amended.  The moved pages are reinserted as one contiguous block
whose relative order is ascending by original page position — the code
sorts the resolved source pages, so a descending source spec still yields
an ascending block — and duplicate resolved source pages contribute
separate copies to the block in that sorted sequence. -/
theorem move_block_sorted_ascending :
    (∀ (pages src tgt : List Nat) (mode : MoveMode), src ≠ [] → tgt ≠ [] →
      List.Sorted (· ≤ ·) (sortedIndices src)
      ∧ ∃ k : Nat, movePages pages src mode tgt =
          .ok ((deleteIndicesDesc (sortedIndices src) pages).take k
                ++ (sortedIndices src).map (fun i => pages.getD i 0)
                ++ (deleteIndicesDesc (sortedIndices src) pages).drop k, false))
    ∧ sortedIndices [5, 3] = [2, 4]
    ∧ movePages [1, 2, 3, 4] [2, 2] .before [1] = .ok ([2, 2, 1, 4], false) := by
  refine ⟨fun pages src tgt mode hs ht => ⟨List.sorted_insertionSort _ _, ?_⟩,
    by decide, rfl⟩
  obtain ⟨k, hk⟩ := pySliceInsert_eq_take_drop
    ((moveAnchor mode (sortedIndices tgt) : Int) -
      (moveAdjustment (sortedIndices src) (moveAnchor mode (sortedIndices tgt)) : Int))
    ((sortedIndices src).map (fun i => pages.getD i 0))
    (deleteIndicesDesc (sortedIndices src) pages)
  exact ⟨k, by rw [movePages_eq pages src tgt mode hs ht, hk]⟩

/-- C5.  A source spec that resolves to no pages makes `move` a warned
no-op (the document comes back unchanged, successfully); a target spec
that resolves to no pages raises `UserCommandLineError` — the embedding
returns `.error` and no mutated document is ever produced. -/
theorem move_empty_source_or_target :
    (∀ (pages tgt : List Nat) (mode : MoveMode),
      movePages pages [] mode tgt = .ok (pages, true))
    ∧ (∀ (pages src : List Nat) (mode : MoveMode), src ≠ [] →
      movePages pages src mode [] = .error "Move target matched no pages.") := by
  refine ⟨fun pages tgt mode => rfl, fun pages src mode hs => ?_⟩
  unfold movePages
  rw [if_neg hs, if_pos rfl]

/-- C10.  A move whose resolved source pages are pairwise distinct (and in
range, with a nonempty target) permutes the document: same length, no page
lost or duplicated, and the pages outside the moved block keep their
original relative order (what deletion keeps is a sublist of the original,
and the result is that sublist split around the block). -/
theorem move_distinct_source_is_permutation (pages src tgt : List Nat)
    (mode : MoveMode) (hd : src.Nodup)
    (hv : ∀ n ∈ src, 1 ≤ n ∧ n ≤ pages.length) (ht : tgt ≠ []) :
    ∃ res warned, movePages pages src mode tgt = .ok (res, warned)
      ∧ List.Perm res pages ∧ res.length = pages.length
      ∧ List.Sublist (deleteIndicesDesc (sortedIndices src) pages) pages
      ∧ ∃ k : Nat, res = (deleteIndicesDesc (sortedIndices src) pages).take k
          ++ (sortedIndices src).map (fun i => pages.getD i 0)
          ++ (deleteIndicesDesc (sortedIndices src) pages).drop k := by
  by_cases hs : src = []
  · subst hs
    refine ⟨pages, true, rfl, List.Perm.refl _, rfl, ?_, 0, ?_⟩
    · rw [show deleteIndicesDesc (sortedIndices []) pages = pages from rfl]
    · rw [show deleteIndicesDesc (sortedIndices []) pages = pages from rfl]
      rfl
  · -- the sorted source indices: strictly ascending and in bounds
    have hsort : (sortedIndices src).Sorted (· ≤ ·) :=
      List.sorted_insertionSort _ _
    have hperm : List.Perm (sortedIndices src) (src.map (· - 1)) :=
      List.perm_insertionSort _ _
    have hmapnodup : (src.map (· - 1)).Nodup := by
      refine List.Nodup.map_on ?_ hd
      intro x hx y hy hxy
      have h1 := hv x hx
      have h2 := hv y hy
      omega
    have hnodup : (sortedIndices src).Nodup := hperm.nodup_iff.mpr hmapnodup
    have hstrict : (sortedIndices src).Sorted (· < ·) := hsort.lt_of_le hnodup
    have hbound : ∀ i ∈ sortedIndices src, i < pages.length := by
      intro i hi
      have : i ∈ src.map (· - 1) := hperm.mem_iff.mp hi
      obtain ⟨n, hn, rfl⟩ := List.mem_map.mp this
      have := hv n hn
      omega
    have hrem : deleteIndicesDesc (sortedIndices src) pages
        = keptFrom (sortedIndices src) 0 pages := by
      rw [deleteIndicesDesc_eq_removeAsc, removeAsc_eq_keptFrom _ _ hstrict]
    have hblockperm : List.Perm
        ((sortedIndices src).map (fun i => pages.getD i 0)
          ++ keptFrom (sortedIndices src) 0 pages) pages := by
      have := perm_block_append_keptFrom 0 pages 0 (sortedIndices src) hstrict
        (fun x hx => ⟨Nat.zero_le x, by simpa using hbound x hx⟩)
      simpa using this
    have hres : movePages pages src mode tgt =
        .ok (pySliceInsert
              ((moveAnchor mode (sortedIndices tgt) : Int) -
                (moveAdjustment (sortedIndices src)
                  (moveAnchor mode (sortedIndices tgt)) : Int))
              ((sortedIndices src).map (fun i => pages.getD i 0))
              (deleteIndicesDesc (sortedIndices src) pages), false) :=
      movePages_eq pages src tgt mode hs ht
    have hresperm : List.Perm (pySliceInsert
        ((moveAnchor mode (sortedIndices tgt) : Int) -
          (moveAdjustment (sortedIndices src)
            (moveAnchor mode (sortedIndices tgt)) : Int))
        ((sortedIndices src).map (fun i => pages.getD i 0))
        (deleteIndicesDesc (sortedIndices src) pages)) pages := by
      refine (pySliceInsert_perm _ _ _).trans ?_
      rw [hrem]
      exact hblockperm
    obtain ⟨k, hk⟩ := pySliceInsert_eq_take_drop
      ((moveAnchor mode (sortedIndices tgt) : Int) -
        (moveAdjustment (sortedIndices src)
          (moveAnchor mode (sortedIndices tgt)) : Int))
      ((sortedIndices src).map (fun i => pages.getD i 0))
      (deleteIndicesDesc (sortedIndices src) pages)
    exact ⟨_, false, hres, hresperm,
      hresperm.length_eq, hrem ▸ keptFrom_sublist _ _ 0, k, hk⟩

/-- C10, witnessed: moving the distinct pages `{2, 4}` of a 4-page
document before page 1. -/
theorem move_distinct_source_is_permutation_witness :
    ∃ res warned, movePages [10, 20, 30, 40] [2, 4] .before [1] = .ok (res, warned)
      ∧ List.Perm res [10, 20, 30, 40]
      ∧ res.length = ([10, 20, 30, 40] : List Nat).length
      ∧ List.Sublist (deleteIndicesDesc (sortedIndices [2, 4]) [10, 20, 30, 40])
          [10, 20, 30, 40]
      ∧ ∃ k : Nat, res =
          (deleteIndicesDesc (sortedIndices [2, 4]) [10, 20, 30, 40]).take k
          ++ (sortedIndices [2, 4]).map
              (fun i => ([10, 20, 30, 40] : List Nat).getD i 0)
          ++ (deleteIndicesDesc (sortedIndices [2, 4]) [10, 20, 30, 40]).drop k :=
  move_distinct_source_is_permutation [10, 20, 30, 40] [2, 4] [1] .before
    (by decide) (by decide) (by decide)

/-! ## Bracket-group expansion

`_expand_square_brackets` lives in `pdftl/utils/page_specs.py`, which is
not among the sources at hand (only its tests are); the definitions below
are modelled from the specification's contract for the expander and match
the expectations of `tests/utils/test_page_specs_coverage.py`. -/

/-- Everything before the first occurrence of `c` and everything after it,
or `none` when `c` does not occur. -/
def splitAtFirst (c : Char) : List Char → Option (List Char × List Char)
  | [] => none
  | x :: xs =>
    if x = c then some ([], xs)
    else (splitAtFirst c xs).map (fun p => (x :: p.1, p.2))

/-- Split on every occurrence of `c` (an empty list of characters between
two adjacent separators yields an empty member). -/
def splitOnChar (c : Char) : List Char → List (List Char)
  | [] => [[]]
  | x :: xs =>
    if x = c then [] :: splitOnChar c xs
    else
      match splitOnChar c xs with
      | [] => [[x]]
      | g :: gs => (x :: g) :: gs

/-- Leading and trailing blanks removed (the tests expand `"[1, 3]r90"` to
`"1r90", "3r90"`, so members are stripped). -/
def trimSpaces (cs : List Char) : List Char :=
  ((cs.dropWhile (fun c => c == ' ')).reverse.dropWhile (fun c => c == ' ')).reverse

/-- Modelled from the spec: expansion of one token.  A token of the form
`[<inner>]<suffix>` becomes one token `<member><suffix>` per comma-separated
member of `<inner>`, in order; a comma after the closing bracket is
ambiguous and fails naming the offending token; a token without a leading
`[` passes through unchanged. -/
def expandToken (t : List Char) : Except (List Char) (List (List Char)) :=
  match t with
  | [] => .ok [[]]
  | x :: rest =>
    if x = '[' then
      match splitAtFirst ']' rest with
      | none => .ok [x :: rest]
      | some (inner, suffix) =>
        if ',' ∈ suffix then .error (x :: rest)
        else .ok ((splitOnChar ',' inner).map (fun m => trimSpaces m ++ suffix))
    else .ok [x :: rest]

/-- Modelled from the spec: `_expand_square_brackets` over the token list,
failing on the first ambiguous token. -/
def expandTokens : List (List Char) → Except (List Char) (List (List Char))
  | [] => .ok []
  | t :: ts =>
    match expandToken t with
    | .error e => .error e
    | .ok out =>
      match expandTokens ts with
      | .error e => .error e
      | .ok rest => .ok (out ++ rest)

theorem splitAtFirst_not_mem {c : Char} : ∀ {t : List Char}, c ∉ t →
    splitAtFirst c t = none := by
  intro t
  induction t with
  | nil => intro _; rfl
  | cons x xs ih =>
    intro h
    have hx : ¬ x = c := fun hc => h (hc ▸ List.mem_cons_self x xs)
    have hxs : c ∉ xs := fun hc => h (List.mem_cons_of_mem x hc)
    simp [splitAtFirst, hx, ih hxs]

theorem splitAtFirst_append (c : Char) (l r : List Char) (hl : c ∉ l) :
    splitAtFirst c (l ++ c :: r) = some (l, r) := by
  induction l with
  | nil => simp [splitAtFirst]
  | cons x xs ih =>
    have hx : ¬ x = c := fun hc => hl (hc ▸ List.mem_cons_self x xs)
    have hxs : c ∉ xs := fun hc => hl (List.mem_cons_of_mem x hc)
    simp [splitAtFirst, hx, ih hxs]

/-- C6.  Bracket expansion maps `[<inner>]<suffix>` to one
`<member><suffix>` per member in order, passes tokens without a leading
bracket through unchanged, and fails naming the offending token when a
comma follows the closing bracket; in particular `["[1,3]r90"]` expands to
`["1r90", "3r90"]` and `["[1,2]x2,3"]` is a syntax error. -/
theorem bracket_expansion :
    (∀ (t : List Char) (ts : List (List Char)), t.head? ≠ some '[' →
      expandTokens (t :: ts) = (expandTokens ts).map (fun rest => t :: rest))
    ∧ (∀ (inner suffix : List Char) (ts : List (List Char)),
        ']' ∉ inner → ',' ∈ suffix →
        expandTokens (('[' :: (inner ++ ']' :: suffix)) :: ts) =
          .error ('[' :: (inner ++ ']' :: suffix)))
    ∧ (∀ (inner suffix : List Char) (ts rs : List (List Char)),
        ']' ∉ inner → ',' ∉ suffix → expandTokens ts = .ok rs →
        expandTokens (('[' :: (inner ++ ']' :: suffix)) :: ts) =
          .ok (((splitOnChar ',' inner).map (fun m => trimSpaces m ++ suffix)) ++ rs))
    ∧ expandTokens ["[1,3]r90".toList] = .ok ["1r90".toList, "3r90".toList]
    ∧ expandTokens ["[1,2]x2,3".toList] = .error ("[1,2]x2,3".toList) := by
  refine ⟨?_, ?_, ?_, rfl, rfl⟩
  · intro t ts h
    have hT : expandToken t = .ok [t] := by
      cases t with
      | nil => rfl
      | cons x xs =>
        have hx : ¬ x = '[' := by simpa using h
        simp [expandToken, hx]
    cases hts : expandTokens ts with
    | error e => simp [expandTokens, hT, hts, Except.map]
    | ok rest => simp [expandTokens, hT, hts, Except.map]
  · intro inner suffix ts hin hcomma
    have hT : expandToken ('[' :: (inner ++ ']' :: suffix)) =
        .error ('[' :: (inner ++ ']' :: suffix)) := by
      simp [expandToken, splitAtFirst_append ']' inner suffix hin, hcomma]
    simp [expandTokens, hT]
  · intro inner suffix ts rs hin hcomma hts
    have hT : expandToken ('[' :: (inner ++ ']' :: suffix)) =
        .ok ((splitOnChar ',' inner).map (fun m => trimSpaces m ++ suffix)) := by
      simp [expandToken, splitAtFirst_append ']' inner suffix hin, hcomma]
    simp [expandTokens, hT, hts]

/-! ## Spin spec splitting (spin.py lines 58–72)

`raw_spec.rsplit(":", 1)` splits on the last colon; a spec with no colon
is skipped with a warning and the loop continues; `float(angle_str)`
failing raises `ValueError`.  Python's `float` is a library routine
external to the repository, so the angle parser is an abstract parameter
here. -/

/-- `rsplit(":", 1)` on a character list: the text before and after the
last `:`, or `none` when there is no colon. -/
def rsplitLast (cs : List Char) : Option (List Char × List Char) :=
  match cs with
  | [] => none
  | c :: rest =>
    match rsplitLast rest with
    | some p => some (c :: p.1, p.2)
    | none => if c = ':' then some ([], rest) else none

/-- The per-spec loop of `spin_pdf` restricted to its parsing outcomes: a
successful run returns the warned (skipped) specs and the
`(page-selection, angle)` pairs in order; an unparsable angle aborts with
the offending raw spec. -/
def spinParse {α : Type} (parseAngle : List Char → Option α) :
    List (List Char) → Except (List Char) (List (List Char) × List (List Char × α))
  | [] => .ok ([], [])
  | t :: ts =>
    match rsplitLast t with
    | none =>
      match spinParse parseAngle ts with
      | .error e => .error e
      | .ok r => .ok (t :: r.1, r.2)
    | some (sel, ang) =>
      match parseAngle ang with
      | none => .error t
      | some a =>
        match spinParse parseAngle ts with
        | .error e => .error e
        | .ok r => .ok (r.1, (sel, a) :: r.2)

theorem rsplitLast_eq_none {t : List Char} (h : ':' ∉ t) : rsplitLast t = none := by
  induction t with
  | nil => rfl
  | cons c cs ih =>
    have hc : ¬ c = ':' := fun hc => h (hc ▸ List.mem_cons_self c cs)
    have hcs : ':' ∉ cs := fun hm => h (List.mem_cons_of_mem c hm)
    simp [rsplitLast, ih hcs, hc]

theorem rsplitLast_append (a b : List Char) (hb : ':' ∉ b) :
    rsplitLast (a ++ ':' :: b) = some (a, b) := by
  induction a with
  | nil => simp [rsplitLast, rsplitLast_eq_none hb]
  | cons x xs ih => simp [rsplitLast, ih]

/-- C7.  A spin spec is split at its last `:` into page selection and
angle; a spec with no colon is skipped (recorded as a warning, the rest of
the specs still processed); an angle the parser rejects aborts with the
offending spec. -/
theorem spin_spec_split :
    (∀ a b : List Char, ':' ∉ b → rsplitLast (a ++ ':' :: b) = some (a, b))
    ∧ (∀ t : List Char, ':' ∉ t → rsplitLast t = none)
    ∧ (∀ {α : Type} (pa : List Char → Option α) (t : List Char)
        (ts : List (List Char)), ':' ∉ t →
        spinParse pa (t :: ts) = (spinParse pa ts).map (fun r => (t :: r.1, r.2)))
    ∧ (∀ {α : Type} (pa : List Char → Option α) (t sel ang : List Char)
        (ts : List (List Char)), rsplitLast t = some (sel, ang) → pa ang = none →
        spinParse pa (t :: ts) = .error t)
    ∧ spinParse (fun s => if s = "45".toList then some (45 : Int) else none)
        ["1-3:45".toList, "6".toList] = .ok (["6".toList], [("1-3".toList, 45)]) := by
  refine ⟨rsplitLast_append, fun t h => rsplitLast_eq_none h, ?_, ?_, rfl⟩
  · intro α pa t ts ht
    cases hts : spinParse pa ts with
    | error e => simp [spinParse, rsplitLast_eq_none ht, hts, Except.map]
    | ok r => simp [spinParse, rsplitLast_eq_none ht, hts, Except.map]
  · intro α pa t sel ang ts hsplit hpa
    simp [spinParse, hsplit, hpa]

/-! ## Range validation (spec §4.4, edge cases)

The validation lives in `pdftl/utils/page_specs.py`, which is not among
the sources at hand; the definitions below are modelled from the spec: an
out-of-range `start`/`end` (≤ 0 or > page_count after `end` substitution,
for non-`end` literals) fails with a range error identifying the offending
bound and the document's actual page count, before any page is touched. -/

/-- Modelled from the spec: an unresolved page reference — a literal
1-based number or the lazy `end` sentinel. -/
inductive PageRef where
  | lit (n : Int)
  | lastPage
deriving DecidableEq, Repr

/-- Modelled from the spec: `end` → page count substitution. -/
def PageRef.subst : PageRef → Nat → Int
  | .lit n, _ => n
  | .lastPage, pc => pc

/-- Modelled from the spec: the range error carries the requested page
number and the document's actual page count (both are required to appear
in the message). -/
structure RangeError where
  requested : Int
  pageCount : Nat
deriving DecidableEq, Repr

/-- Modelled from the spec: a non-`end` literal bound is out of range when
`≤ 0` or greater than the page count. -/
def checkPageRef : PageRef → Nat → Option RangeError
  | .lit n, pc => if n ≤ 0 ∨ (pc : Int) < n then some ⟨n, pc⟩ else none
  | .lastPage, _ => none

/-- Modelled from the spec: a spec token before `end` substitution. -/
structure RawPageSpec where
  start : PageRef
  stop : PageRef
  qualifiers : List String
  omissions : List (PageRef × PageRef)

/-- Modelled from the spec: validate both bounds against the page count,
then resolve as `spin_pdf` does. -/
def resolveChecked (sp : RawPageSpec) (pc : Nat) : Except RangeError (List Int) :=
  match checkPageRef sp.start pc with
  | some e => .error e
  | none =>
    match checkPageRef sp.stop pc with
    | some e => .error e
    | none =>
      .ok (resolvePageSpec ⟨sp.start.subst pc, sp.stop.subst pc, sp.qualifiers,
        sp.omissions.map (fun om => (om.1.subst pc, om.2.subst pc))⟩)

/-- The transform applied to every selected page (1-based numbers). -/
def applyAtPages {α : Type} (nums : List Int) (f : α → α) (pages : List α) :
    List α :=
  nums.foldl
    (fun ps n => ps.mapIdx (fun i a => if (i : Int) = n - 1 then f a else a)) pages

/-- Spin over a document: resolution first; a range error aborts before
any page is transformed. -/
def spinChecked {α : Type} (sp : RawPageSpec) (f : α → α) (pages : List α) :
    Except RangeError (List α) :=
  match resolveChecked sp pages.length with
  | .error e => .error e
  | .ok nums => .ok (applyAtPages nums f pages)

/-- C8.  An out-of-range non-`end` bound (≤ 0 or above the page count
after `end` substitution) makes resolution fail with a range error that
carries the requested number and the document's actual page count, and no
transform is applied to any page: the whole operation returns that error
and never a document. -/
theorem spin_range_error_aborts :
    (∀ {α : Type} (f : α → α) (pages : List α) (sp : RawPageSpec) (n : Int),
      sp.start = .lit n → (n ≤ 0 ∨ (pages.length : Int) < n) →
      spinChecked sp f pages = .error ⟨n, pages.length⟩)
    ∧ (∀ {α : Type} (f : α → α) (pages : List α) (sp : RawPageSpec) (n : Int),
      checkPageRef sp.start pages.length = none →
      sp.stop = .lit n → (n ≤ 0 ∨ (pages.length : Int) < n) →
      spinChecked sp f pages = .error ⟨n, pages.length⟩)
    ∧ spinChecked ⟨.lit 9, .lit 2, [], []⟩ (fun a : Nat => a + 1) [10, 20] =
        .error ⟨9, 2⟩ := by
  refine ⟨?_, ?_, rfl⟩
  · intro α f pages sp n hstart hout
    have hchk : checkPageRef sp.start pages.length = some ⟨n, pages.length⟩ := by
      rw [hstart]
      simp [checkPageRef, hout]
    simp [spinChecked, resolveChecked, hchk]
  · intro α f pages sp n hok hstop hout
    have hchk : checkPageRef sp.stop pages.length = some ⟨n, pages.length⟩ := by
      rw [hstop]
      simp [checkPageRef, hout]
    simp [spinChecked, resolveChecked, hok, hchk]

end Pdftl
